import Mathlib

/-!
Shallow embedding of the Duplicate Photo Manager engine (`src/dupfinder.py`)
and proofs about its behaviour.

Modelling conventions:
* SQLite rows become Lean structures; the `images` and `duplicate_groups`
  tables become lists of rows; `AUTOINCREMENT` becomes an explicit
  `nextGroupId` counter (the scan always starts from a freshly reset schema,
  where the counter starts at 1).
* Filesystem and image-decoding effects are abstracted into per-file input
  records (`FileProbe`, `FileInfo`, `FSEntry`, `DeleteWorld`): each records
  the outcome the external world would produce (stat result, decode result,
  whether a write raises), and the embedded code branches on them exactly
  where the Python code would observe an exception.
* Qt signal emissions become an explicit trace of `Event` values.
* Python's `int(x)` truncation of the non-negative progress quotient is
  modelled as `Nat` floor division.
* `list(set(...))` and SQL `ORDER BY` produce an unspecified order for
  duplicates/ties; the embedding fixes one concrete order (first occurrence,
  stable sort), and theorems about them only use order-insensitive facts
  (set membership, sortedness) that hold for every tie resolution.
-/

namespace DupFinder

/-- `IMAGE_EXTENSIONS` from dupfinder.py (a Python set literal; the element
order is irrelevant to every claim, which are all set-level). -/
def IMAGE_EXTENSIONS : List String :=
  [".jpg", ".jpeg", ".png", ".heic", ".heif", ".bmp", ".gif", ".webp", ".tiff", ".tif"]

/-- An entry of the scanned directory tree, as seen by `Path.glob`:
its path and whether it is a regular file (`f.is_file()`). -/
structure FSEntry where
  path : String
  isFile : Bool
deriving DecidableEq, Repr

/-- Python `str.upper()` restricted to the ASCII extension strings used here. -/
def strUpper (s : String) : String := ⟨s.data.map Char.toUpper⟩

/-- Python `str.lower()` (used only to state case-insensitive matching claims). -/
def strLower (s : String) : String := ⟨s.data.map Char.toLower⟩

/-- Suffix test on strings; `folder.glob("**/*" + ext)` selects exactly the
entries whose path ends (case-sensitively) with `ext`, since `ext` contains
no path separator. -/
def strEndsWith (s suffix : String) : Bool := suffix.data.isSuffixOf s.data

/-- One `glob` pattern pass of `find_image_files`: regular files whose path
ends with the given extension. -/
def matchesGlob (ext : String) (e : FSEntry) : Bool := e.isFile && strEndsWith e.path ext

/-- `ScanThread.find_image_files`: for each allow-listed extension, glob the
lowercase pattern and the uppercase pattern, then de-duplicate with
`list(set(...))`. -/
def find_image_files (fs : List FSEntry) : List String :=
  (IMAGE_EXTENSIONS.flatMap fun ext =>
    ((fs.filter (matchesGlob ext)).map FSEntry.path) ++
    ((fs.filter (matchesGlob (strUpper ext))).map FSEntry.path)).dedup

/-- The metadata dictionary returned by `ScanThread.get_metadata`. -/
structure Metadata where
  resolution : String
  width : Nat
  height : Nat
  file_size : Nat
  date_taken : Option String
  date_modified : Option String
deriving DecidableEq, Repr

/-- Abstract outcome of the external probes `get_metadata` performs on one
file: `os.stat` (size and mtime isoformat, `none` when the stat raises),
`Image.open` (dimensions, `none` when decoding raises), and the EXIF
`DateTime` extraction (already reduced to its final `isoformat` result;
absence or a parse failure is `none`, as in the code's inner try/except). -/
structure FileProbe where
  statResult : Option (Nat × String)
  decodeResult : Option (Nat × Nat)
  exifDate : Option String
deriving DecidableEq, Repr

/-- The dictionary returned by the `except:` arm of `get_metadata`. -/
def metadataFallback : Metadata :=
  { resolution := "unknown", width := 0, height := 0, file_size := 0,
    date_taken := none, date_modified := none }

/-- `ScanThread.get_metadata`: the single `try:` block wraps both the
`os.stat` call and the `Image.open` decode, so an exception from either one
reaches the same `except:` arm and returns the full fallback dictionary. -/
def get_metadata (f : FileProbe) : Metadata :=
  match f.statResult with
  | none => metadataFallback
  | some (size, dmod) =>
    match f.decodeResult with
    | none => metadataFallback
    | some (w, h) =>
      { resolution := toString w ++ "x" ++ toString h,
        width := w, height := h, file_size := size,
        date_taken := f.exifDate, date_modified := some dmod }

/-- A row of the `images` table (schema in `setup_database`). -/
structure ImageRow where
  path : String
  filename : String
  hash : String
  resolution : String
  width : Nat
  height : Nat
  file_size : Nat
  date_taken : Option String
  date_modified : Option String
  is_original : Bool
  group_id : Option Nat
  is_deleted : Bool
deriving DecidableEq, Repr

/-- A row of the `duplicate_groups` table (`created_at` is irrelevant to all
claims and omitted). -/
structure GroupRow where
  id : Nat
  hash : String
  image_count : Nat
deriving DecidableEq, Repr

/-- The SQLite database: both tables plus the AUTOINCREMENT counter for
`duplicate_groups.id`. -/
structure DB where
  images : List ImageRow
  groups : List GroupRow
  nextGroupId : Nat
deriving DecidableEq, Repr

/-- The database right after `setup_database` (drop-and-recreate). -/
def emptyDB : DB := { images := [], groups := [], nextGroupId := 1 }

/-- The in-memory `image_data` dict built in the processing loop. -/
structure ImageData where
  path : String
  hash : String
  filename : String
  resolution : String
  width : Nat
  height : Nat
  file_size : Nat
  date_taken : Option String
  date_modified : Option String
deriving DecidableEq, Repr

/-- The row inserted by `save_image_to_db`: columns not named in the INSERT
take their schema defaults (`is_original FALSE`, `group_id NULL`,
`is_deleted FALSE`). -/
def rowOfData (d : ImageData) : ImageRow :=
  { path := d.path, filename := d.filename, hash := d.hash,
    resolution := d.resolution, width := d.width, height := d.height,
    file_size := d.file_size, date_taken := d.date_taken,
    date_modified := d.date_modified,
    is_original := false, group_id := none, is_deleted := false }

/-- `ScanThread.save_image_to_db`: `INSERT OR REPLACE` on the unique `path`
column — any existing row with the same path is replaced. -/
def save_image_to_db (db : DB) (d : ImageData) : DB :=
  { db with images := (db.images.filter fun r => r.path != d.path) ++ [rowOfData d] }

/-- `ScanThread.create_duplicate_group`: inserts one group row with
`image_count = len(images)` and returns the fresh `lastrowid`. -/
def create_duplicate_group (db : DB) (h : String) (count : Nat) : DB × Nat :=
  ({ db with
      groups := db.groups ++ [{ id := db.nextGroupId, hash := h, image_count := count }],
      nextGroupId := db.nextGroupId + 1 },
   db.nextGroupId)

/-- `ScanThread.update_image_group`: `UPDATE images SET group_id = ?,
is_original = ? WHERE path = ?`. -/
def update_image_group (db : DB) (p : String) (gid : Nat) (orig : Bool) : DB :=
  { db with images := db.images.map fun r =>
      if r.path = p then { r with group_id := some gid, is_original := orig } else r }

/-- The database update of `DuplicatePhotoManager.delete_image`:
`UPDATE images SET is_deleted = TRUE WHERE path = ?` (a no-op when no row
matches). -/
def markDeleted (db : DB) (p : String) : DB :=
  { db with images := db.images.map fun r =>
      if r.path = p then { r with is_deleted := true } else r }

/-- Abstract world for one `delete_image` call: the database, whether
`os.path.exists(file_path)` holds, and whether `os.remove` or the SQL UPDATE
would raise. -/
structure DeleteWorld where
  db : DB
  fsExists : Bool
  removeFails : Bool
  dbUpdateFails : Bool
deriving Repr

/-- Outcome of `delete_image`: `ok = true` means the success message box was
shown (no exception reached the `except` arm); `fileRemoved` records whether
`os.remove` actually ran to completion. -/
structure DeleteResult where
  ok : Bool
  db : DB
  fileRemoved : Bool
deriving Repr

/-- `DuplicatePhotoManager.delete_image` (after the user confirms): the file
is removed only if it exists; then the row is soft-deleted; any exception
from either step reaches the `except` arm, which reports the error and
leaves the database write unexecuted. -/
def delete_image (w : DeleteWorld) (p : String) : DeleteResult :=
  if w.fsExists then
    if w.removeFails then { ok := false, db := w.db, fileRemoved := false }
    else if w.dbUpdateFails then { ok := false, db := w.db, fileRemoved := true }
    else { ok := true, db := markDeleted w.db p, fileRemoved := true }
  else
    if w.dbUpdateFails then { ok := false, db := w.db, fileRemoved := false }
    else { ok := true, db := markDeleted w.db p, fileRemoved := false }

/-! ### Helper lemmas -/

theorem markDeleted_eq_of_no_row (db : DB) (p : String)
    (h : ∀ r ∈ db.images, r.path ≠ p) : markDeleted db p = db := by
  have him : db.images.map
      (fun r => if r.path = p then { r with is_deleted := true } else r) = db.images := by
    conv_rhs => rw [← List.map_id db.images]
    exact List.map_congr_left fun r hr => by simp [h r hr]
  unfold markDeleted
  rw [him]

/-! ### Claim C5 — metadata extraction on decode failure -/

/-- **C5** counterexample: a statable file (stat returns size 123 and an
mtime) whose image decode fails: `get_metadata` returns the full fallback
dictionary, with `file_size = 0` (not the stat size 123) and
`date_modified = none` (not the stat mtime). The claim that
`file_size`/`date_modified` are taken from the filesystem stat when only the
decode fails is false: the single `try:` block discards the stat results. -/
theorem metadata_stat_discarded_cex :
    get_metadata { statResult := some (123, "2020-01-01T00:00:00"),
                   decodeResult := none, exifDate := none } = metadataFallback ∧
    (get_metadata { statResult := some (123, "2020-01-01T00:00:00"),
                    decodeResult := none, exifDate := none }).file_size ≠ 123 ∧
    (get_metadata { statResult := some (123, "2020-01-01T00:00:00"),
                    decodeResult := none, exifDate := none }).date_modified = none := by
  refine ⟨rfl, ?_, rfl⟩
  decide

/-- **C5** (amended): on image-decode failure every field of the metadata
dictionary — including `file_size` and `date_modified` — falls back to the
placeholder values `{"unknown", 0, 0, 0, null, null}`; the extractor never
raises (it is a total function), so metadata extraction cannot abort the
scan. -/
theorem metadata_decode_failure_fallback (f : FileProbe)
    (h : f.decodeResult = none) : get_metadata f = metadataFallback := by
  unfold get_metadata
  cases hs : f.statResult with
  | none => rfl
  | some sd =>
    obtain ⟨size, dmod⟩ := sd
    rw [h]

theorem metadata_decode_failure_fallback_witness :
    get_metadata { statResult := some (5, "m"), decodeResult := none, exifDate := none }
      = metadataFallback :=
  metadata_decode_failure_fallback _ rfl

/-! ### Claims C9 and C10 — the delete operation -/

/-- **C9** counterexample: the file is already gone (`os.path.exists` is
false) and the store update succeeds — `delete_image` silently skips the
removal and reports success, contradicting the claim that the already-gone
case is surfaced as an error to the caller. -/
theorem delete_missing_file_ok_cex :
    (delete_image { db := emptyDB, fsExists := false, removeFails := false,
                    dbUpdateFails := false } "gone.jpg").ok = true ∧
    (delete_image { db := emptyDB, fsExists := false, removeFails := false,
                    dbUpdateFails := false } "gone.jpg").fileRemoved = false :=
  ⟨rfl, rfl⟩

/-- **C9** (amended): when removal of a still-existing file fails, or the
store update fails, the failure is surfaced as an error to the caller
(`ok = false`) and the catalog is left unchanged; a file that is already
gone is not an error — the removal is skipped and the deletion reports
success. Scan state is untouched either way (`delete_image` reads and
writes nothing of the scan). -/
theorem delete_failure_surfaced (w : DeleteWorld) (p : String)
    (h : (w.fsExists = true ∧ w.removeFails = true) ∨ w.dbUpdateFails = true) :
    (delete_image w p).ok = false ∧ (delete_image w p).db = w.db := by
  unfold delete_image
  rcases h with ⟨h1, h2⟩ | h3
  · simp [h1, h2]
  · cases hf : w.fsExists <;> cases hr : w.removeFails <;> simp [h3, hf, hr]

theorem delete_failure_surfaced_witness :
    (delete_image { db := emptyDB, fsExists := true, removeFails := true,
                    dbUpdateFails := false } "x").ok = false ∧
    (delete_image { db := emptyDB, fsExists := true, removeFails := true,
                    dbUpdateFails := false } "x").db
      = ({ db := emptyDB, fsExists := true, removeFails := true,
           dbUpdateFails := false } : DeleteWorld).db :=
  delete_failure_surfaced _ _ (Or.inl ⟨rfl, rfl⟩)

/-- **C10** (confirmed): deleting a path that has no row in the images
catalog still reports success — the file is removed from disk exactly when
it exists, the `is_deleted` UPDATE matches zero rows and leaves the catalog
unchanged, and no error is surfaced. -/
theorem delete_unknown_path_success (w : DeleteWorld) (p : String)
    (hrm : w.removeFails = false) (hdb : w.dbUpdateFails = false)
    (hno : ∀ r ∈ w.db.images, r.path ≠ p) :
    (delete_image w p).ok = true ∧ (delete_image w p).db = w.db ∧
    (delete_image w p).fileRemoved = w.fsExists := by
  have hmd := markDeleted_eq_of_no_row w.db p hno
  unfold delete_image
  cases hf : w.fsExists <;> simp [hrm, hdb, hmd, hf]

theorem delete_unknown_path_success_witness :
    (delete_image { db := emptyDB, fsExists := true, removeFails := false,
                    dbUpdateFails := false } "y").ok = true ∧
    (delete_image { db := emptyDB, fsExists := true, removeFails := false,
                    dbUpdateFails := false } "y").db
      = ({ db := emptyDB, fsExists := true, removeFails := false,
           dbUpdateFails := false } : DeleteWorld).db ∧
    (delete_image { db := emptyDB, fsExists := true, removeFails := false,
                    dbUpdateFails := false } "y").fileRemoved
      = ({ db := emptyDB, fsExists := true, removeFails := false,
           dbUpdateFails := false } : DeleteWorld).fsExists :=
  delete_unknown_path_success _ _ rfl rfl (fun r hr => absurd hr (List.not_mem_nil r))

/-! ### Claim C7 — file discovery -/

/-- **C7** counterexample: a regular file `a.Jpg`, whose extension matches
the allow-listed `.jpg` case-insensitively (lowercasing it gives `.jpg`),
is matched by neither the lowercase glob pattern nor the uppercase one, so
`find_image_files` misses it entirely — extension matching is not
case-insensitive. -/
theorem mixed_case_not_matched_cex :
    find_image_files [{ path := "a.Jpg", isFile := true }] = [] ∧
    strEndsWith (strLower "a.Jpg") ".jpg" = true := by
  constructor
  · decide
  · decide

/-- **C7** (amended): `find_image_files` returns each matching path at most
once (the `list(set(...))` de-duplication), and a path is returned iff some
regular file under the root has that path and the path ends with an
allow-listed extension written either all-lowercase or all-uppercase
(`.jpg` or `.JPG`); mixed-case extensions are not matched. -/
theorem find_image_files_spec (fs : List FSEntry) :
    (find_image_files fs).Nodup ∧
    ∀ p, p ∈ find_image_files fs ↔
      ∃ e ∈ fs, e.isFile = true ∧ e.path = p ∧
        ∃ ext ∈ IMAGE_EXTENSIONS,
          (strEndsWith p ext = true ∨ strEndsWith p (strUpper ext) = true) := by
  refine ⟨List.nodup_dedup _, fun p => ?_⟩
  simp only [find_image_files, List.mem_dedup, List.mem_flatMap, List.mem_append,
    List.mem_map, List.mem_filter, matchesGlob, Bool.and_eq_true]
  constructor
  · rintro ⟨ext, hext, ⟨e, ⟨hefs, hf, hends⟩, hpath⟩ | ⟨e, ⟨hefs, hf, hends⟩, hpath⟩⟩
    · exact ⟨e, hefs, hf, hpath, ext, hext, Or.inl (hpath ▸ hends)⟩
    · exact ⟨e, hefs, hf, hpath, ext, hext, Or.inr (hpath ▸ hends)⟩
  · rintro ⟨e, hefs, hf, hpath, ext, hext, hends | hends⟩
    · exact ⟨ext, hext, Or.inl ⟨e, ⟨hefs, hf, hpath.symm ▸ hends⟩, hpath⟩⟩
    · exact ⟨ext, hext, Or.inr ⟨e, ⟨hefs, hf, hpath.symm ▸ hends⟩, hpath⟩⟩

/-! ### The grouping-phase sort (claim C2)

`images.sort(key=lambda x: (x['width'] * x['height'], x['date_taken'] or ''),
reverse=True)` is Python's stable sort, descending on the lexicographic
tuple key; a missing (or empty) `date_taken` contributes the empty string.
A stable descending sort is a stable insertion sort with the relation
"key of the left element is ≥ key of the right element". -/

/-- The Python sort key `(x['width'] * x['height'], x['date_taken'] or '')`. -/
def imageKey (d : ImageData) : Nat × String := (d.width * d.height, d.date_taken.getD "")

/-- Python's string `<=`: lexicographic comparison of code points. -/
def charLexLe : List Char → List Char → Bool
  | [], _ => true
  | _ :: _, [] => false
  | a :: as, b :: bs =>
    if a.toNat < b.toNat then true
    else if b.toNat < a.toNat then false
    else charLexLe as bs

def strLe (s t : String) : Bool := charLexLe s.data t.data

theorem charLexLe_total : ∀ xs ys : List Char, charLexLe xs ys = true ∨ charLexLe ys xs = true
  | [], _ => Or.inl rfl
  | _ :: _, [] => Or.inr rfl
  | a :: as, b :: bs => by
    rcases Nat.lt_trichotomy a.toNat b.toNat with h | h | h
    · exact Or.inl (by simp [charLexLe, h])
    · have hba : ¬ b.toNat < a.toNat := by omega
      have hab : ¬ a.toNat < b.toNat := by omega
      rcases charLexLe_total as bs with ih | ih
      · exact Or.inl (by simp [charLexLe, hab, hba, h, ih])
      · exact Or.inr (by simp [charLexLe, hab, hba, h, ih])
    · exact Or.inr (by simp [charLexLe, h])

theorem charLexLe_trans : ∀ xs ys zs : List Char,
    charLexLe xs ys = true → charLexLe ys zs = true → charLexLe xs zs = true
  | [], _, _ => fun _ _ => rfl
  | a :: as, [], _ => fun h _ => by simp [charLexLe] at h
  | _ :: _, _ :: _, [] => fun _ h' => by simp [charLexLe] at h'
  | a :: as, b :: bs, c :: cs => fun h h' => by
    by_cases hab : a.toNat < b.toNat <;> by_cases hbc : b.toNat < c.toNat
    · simp [charLexLe, show a.toNat < c.toNat by omega]
    · simp only [charLexLe, hbc, if_false] at h'
      by_cases hcb : c.toNat < b.toNat
      · simp [hcb] at h'
      · simp [charLexLe, show a.toNat < c.toNat by omega]
    · simp only [charLexLe, hab, if_false] at h
      by_cases hba : b.toNat < a.toNat
      · simp [hba] at h
      · simp [charLexLe, show a.toNat < c.toNat by omega]
    · simp only [charLexLe, hab, if_false] at h
      simp only [charLexLe, hbc, if_false] at h'
      by_cases hba : b.toNat < a.toNat
      · simp [hba] at h
      · by_cases hcb : c.toNat < b.toNat
        · simp [hcb] at h'
        · simp only [hba, if_false] at h
          simp only [hcb, if_false] at h'
          have hac : ¬ a.toNat < c.toNat ∧ ¬ c.toNat < a.toNat := by omega
          simp only [charLexLe, hac.1, hac.2, if_false]
          exact charLexLe_trans as bs cs h h'

/-- Lexicographic `≤` on `(Nat, String)` keys — Python's tuple comparison. -/
def keyLe (k1 k2 : Nat × String) : Prop :=
  k1.1 < k2.1 ∨ (k1.1 = k2.1 ∧ strLe k1.2 k2.2 = true)

instance : ∀ k1 k2, Decidable (keyLe k1 k2) := fun _ _ => by
  unfold keyLe; exact inferInstance

theorem keyLe_total (k1 k2 : Nat × String) : keyLe k1 k2 ∨ keyLe k2 k1 := by
  obtain ⟨a1, s1⟩ := k1
  obtain ⟨a2, s2⟩ := k2
  rcases Nat.lt_trichotomy a1 a2 with h | h | h
  · exact Or.inl (Or.inl h)
  · rcases charLexLe_total s1.data s2.data with hs | hs
    · exact Or.inl (Or.inr ⟨h, hs⟩)
    · exact Or.inr (Or.inr ⟨h.symm, hs⟩)
  · exact Or.inr (Or.inl h)

theorem keyLe_trans {k1 k2 k3 : Nat × String} (h12 : keyLe k1 k2) (h23 : keyLe k2 k3) :
    keyLe k1 k3 := by
  obtain ⟨a1, s1⟩ := k1
  obtain ⟨a2, s2⟩ := k2
  obtain ⟨a3, s3⟩ := k3
  rcases h12 with h | ⟨he, hs⟩ <;> rcases h23 with h' | ⟨he', hs'⟩
  · exact Or.inl (h.trans h')
  · exact Or.inl (he' ▸ h)
  · exact Or.inl (he ▸ h')
  · exact Or.inr ⟨he.trans he', charLexLe_trans _ _ _ hs hs'⟩

/-- "`a` sorts no later than `b`" for `reverse=True`: the key of `a` is
lexicographically ≥ the key of `b`. -/
def imgGe (a b : ImageData) : Prop := keyLe (imageKey b) (imageKey a)

instance : DecidableRel imgGe := fun _ _ => by
  unfold imgGe; exact inferInstance

instance : IsTotal ImageData imgGe := ⟨fun a b => keyLe_total (imageKey b) (imageKey a)⟩

instance : IsTrans ImageData imgGe :=
  ⟨fun _ _ _ h1 h2 => keyLe_trans h2 h1⟩

/-- The grouping phase's `images.sort(key=..., reverse=True)`: a stable sort
that puts larger keys first. -/
def sortImages (l : List ImageData) : List ImageData := l.insertionSort imgGe

/-- **C2** (confirmed): the grouping phase sorts each bucket (via
`sortImages`, used by `groupBucket` below) into an order that is descending
on the key `(width*height, date_taken)` — pixel area first, then
`date_taken` compared lexicographically with a missing value read as the
empty string — and the output is a permutation of the bucket.  Determinism
of the order is immediate: `sortImages` is a pure function of the bucket, so
the same inputs always produce the same order. -/
theorem grouping_sort_descending (l : List ImageData) :
    (sortImages l).Sorted imgGe ∧ (sortImages l).Perm l :=
  ⟨List.sorted_insertionSort imgGe l, List.perm_insertionSort imgGe l⟩

/-! ### The grouping phase (claim C1)

`scan_for_duplicates` lines 110–122: for every entry of `hash_to_images`
with more than one member, sort the bucket, insert one `duplicate_groups`
row, and set every member's `group_id` to the fresh id (with
`is_original = False` for all). -/

/-- One iteration of the `for img_hash, images in hash_to_images.items()`
loop. -/
def groupBucket (db : DB) (h : String) (imgs : List ImageData) : DB :=
  if 1 < imgs.length then
    let sorted := sortImages imgs
    let res := create_duplicate_group db h sorted.length
    sorted.foldl (fun d img => update_image_group d img.path res.2 false) res.1
  else db

/-- The whole grouping loop over the accumulated buckets, in dict insertion
order. -/
def runGrouping (db : DB) (bs : List (String × List ImageData)) : DB :=
  bs.foldl (fun d b => groupBucket d b.1 b.2) db

/-- The paths of a bucket's members. -/
def memberPaths (imgs : List ImageData) : List String := imgs.map ImageData.path

/-- The effect of one bucket's `update_image_group` loop on one row: rows
whose path belongs to the bucket get the fresh `group_id` (and
`is_original := false`); all other rows are untouched. -/
def setGroup (ps : List String) (gid : Nat) (r : ImageRow) : ImageRow :=
  if r.path ∈ ps then { r with group_id := some gid, is_original := false } else r

/-- The `duplicate_groups` rows inserted by the grouping loop, given the
next AUTOINCREMENT id. -/
def groupsAdded (base : Nat) : List (String × List ImageData) → List GroupRow
  | [] => []
  | (h, imgs) :: bs =>
    if 1 < imgs.length then
      { id := base, hash := h, image_count := imgs.length } :: groupsAdded (base + 1) bs
    else groupsAdded base bs

/-- How many buckets have more than one member. -/
def bigCount : List (String × List ImageData) → Nat
  | [] => 0
  | (_, imgs) :: bs => (if 1 < imgs.length then 1 else 0) + bigCount bs

/-- The cumulative effect of the grouping loop on one row of `images`. -/
def applyAssign (base : Nat) : List (String × List ImageData) → ImageRow → ImageRow
  | [], r => r
  | (_, imgs) :: bs, r =>
    if 1 < imgs.length then applyAssign (base + 1) bs (setGroup (memberPaths imgs) base r)
    else applyAssign base bs r

theorem setGroup_path (ps : List String) (gid : Nat) (r : ImageRow) :
    (setGroup ps gid r).path = r.path := by
  unfold setGroup; split <;> rfl

theorem setGroup_group_id (ps : List String) (gid : Nat) (r : ImageRow) :
    (setGroup ps gid r).group_id = if r.path ∈ ps then some gid else r.group_id := by
  unfold setGroup; split <;> simp_all

theorem setGroup_congr {ps qs : List String} (hpq : ∀ x, x ∈ ps ↔ x ∈ qs)
    (gid : Nat) (r : ImageRow) : setGroup ps gid r = setGroup qs gid r := by
  unfold setGroup
  rw [if_congr (hpq r.path) rfl rfl]

theorem setGroup_cons (p : String) (ps : List String) (gid : Nat) (r : ImageRow) :
    setGroup (p :: ps) gid r
      = setGroup ps gid
          (if r.path = p then { r with group_id := some gid, is_original := false } else r) := by
  by_cases hp : r.path = p
  · by_cases hps : p ∈ ps <;> simp [setGroup, hp, hps, List.mem_cons]
  · simp [setGroup, hp, List.mem_cons]

/-- The `update_image_group` fold over a bucket is a pointwise map with
`setGroup` over the whole images table; the `groups` table and the id
counter are untouched. -/
theorem foldl_update_images (gid : Nat) (l : List ImageData) (db : DB) :
    l.foldl (fun d img => update_image_group d img.path gid false) db
      = { db with images := db.images.map (setGroup (memberPaths l) gid) } := by
  induction l generalizing db with
  | nil =>
    have : db.images.map (setGroup (memberPaths []) gid) = db.images := by
      conv_rhs => rw [← List.map_id db.images]
      exact List.map_congr_left fun r _ => by simp [setGroup, memberPaths]
    simp only [List.foldl_nil, this]
  | cons a l ih =>
    rw [List.foldl_cons, ih]
    unfold update_image_group
    simp only [List.map_map]
    congr 1
    apply List.map_congr_left
    intro r _
    simp only [Function.comp_apply, memberPaths, List.map_cons]
    rw [setGroup_cons]

/-- Characterization of one grouping iteration. -/
theorem groupBucket_eq (db : DB) (h : String) (imgs : List ImageData) :
    groupBucket db h imgs =
      if 1 < imgs.length then
        { images := db.images.map (setGroup (memberPaths imgs) db.nextGroupId),
          groups := db.groups ++ [{ id := db.nextGroupId, hash := h, image_count := imgs.length }],
          nextGroupId := db.nextGroupId + 1 }
      else db := by
  unfold groupBucket create_duplicate_group
  by_cases hlen : 1 < imgs.length
  · simp only [hlen, if_true]
    rw [foldl_update_images]
    have hlensort : (sortImages imgs).length = imgs.length :=
      (List.perm_insertionSort imgGe imgs).length_eq
    have hmem : ∀ x, x ∈ memberPaths (sortImages imgs) ↔ x ∈ memberPaths imgs := fun x =>
      ((List.perm_insertionSort imgGe imgs).map ImageData.path).mem_iff

    simp only [hlensort]
    congr 1
    exact List.map_congr_left fun r _ => setGroup_congr hmem _ r
  · simp [hlen]

/-- Characterization of the whole grouping loop. -/
theorem runGrouping_eq (bs : List (String × List ImageData)) (db : DB) :
    runGrouping db bs =
      { images := db.images.map (applyAssign db.nextGroupId bs),
        groups := db.groups ++ groupsAdded db.nextGroupId bs,
        nextGroupId := db.nextGroupId + bigCount bs } := by
  induction bs generalizing db with
  | nil =>
    have : db.images.map (applyAssign db.nextGroupId []) = db.images := by
      conv_rhs => rw [← List.map_id db.images]
      exact List.map_congr_left fun r _ => rfl
    simp only [runGrouping, List.foldl_nil, groupsAdded, bigCount, this,
      List.append_nil, Nat.add_zero]
  | cons b bs ih =>
    obtain ⟨h, imgs⟩ := b
    have hstep : runGrouping db ((h, imgs) :: bs) = runGrouping (groupBucket db h imgs) bs := by
      simp [runGrouping]
    rw [hstep, ih, groupBucket_eq]
    by_cases hlen : 1 < imgs.length
    · simp only [hlen, if_true, groupsAdded, bigCount]
      refine DB.mk.injEq .. ▸ ⟨?_, ?_, ?_⟩
      · simp only [List.map_map]
        exact List.map_congr_left fun r _ => by
          simp [applyAssign, hlen, Function.comp]
      · simp [List.append_assoc]
      · omega
    · simp only [hlen, if_false, groupsAdded, bigCount]
      refine DB.mk.injEq .. ▸ ⟨?_, ?_, ?_⟩
      · exact List.map_congr_left fun r _ => by simp [applyAssign, hlen]
      · simp
      · omega

/-- The `group_id` a path ends up with after the grouping loop, starting
from current value `cur`: buckets are processed left to right, later
assignments overwriting earlier ones (`UPDATE ... WHERE path = ?`). -/
def lastAssign (base : Nat) : List (String × List ImageData) → String → Option Nat → Option Nat
  | [], _, cur => cur
  | (_, imgs) :: bs, p, cur =>
    if 1 < imgs.length then
      lastAssign (base + 1) bs p (if p ∈ memberPaths imgs then some base else cur)
    else lastAssign base bs p cur

/-- Member paths of the buckets that actually form groups (more than one
member). -/
def bigPaths : List (String × List ImageData) → List String
  | [] => []
  | (_, imgs) :: bs => (if 1 < imgs.length then memberPaths imgs else []) ++ bigPaths bs

/-- Member paths of all buckets. -/
def allPaths : List (String × List ImageData) → List String
  | [] => []
  | b :: bs => memberPaths b.2 ++ allPaths bs

theorem bigPaths_subset_allPaths : ∀ bs, bigPaths bs ⊆ allPaths bs := by
  intro bs
  induction bs with
  | nil => exact .refl _
  | cons b rest ih =>
    obtain ⟨h, imgs⟩ := b
    intro p hp
    by_cases hlen : 1 < imgs.length <;> simp only [bigPaths, hlen, if_true, if_false,
      List.nil_append, List.mem_append, allPaths] at hp ⊢
    · rcases hp with hp | hp
      · exact Or.inl hp
      · exact Or.inr (ih hp)
    · exact Or.inr (ih hp)

theorem mem_allPaths {bs : List (String × List ImageData)} {h : String}
    {imgs : List ImageData} (hb : (h, imgs) ∈ bs) :
    ∀ p ∈ memberPaths imgs, p ∈ allPaths bs := by
  induction bs with
  | nil => exact absurd hb (List.not_mem_nil _)
  | cons b rest ih =>
    intro p hp
    rcases List.mem_cons.mp hb with heq | hmem
    · subst heq
      exact List.mem_append.mpr (Or.inl hp)
    · exact List.mem_append.mpr (Or.inr (ih hmem p hp))

theorem applyAssign_path (bs : List (String × List ImageData)) (base : Nat) (r : ImageRow) :
    (applyAssign base bs r).path = r.path := by
  induction bs generalizing base r with
  | nil => rfl
  | cons b bs ih =>
    obtain ⟨h, imgs⟩ := b
    by_cases hlen : 1 < imgs.length
    · simp only [applyAssign, hlen, if_true]
      rw [ih, setGroup_path]
    · simp only [applyAssign, hlen, if_false]
      exact ih _ _

theorem applyAssign_group_id (bs : List (String × List ImageData)) (base : Nat) (r : ImageRow) :
    (applyAssign base bs r).group_id = lastAssign base bs r.path r.group_id := by
  induction bs generalizing base r with
  | nil => rfl
  | cons b bs ih =>
    obtain ⟨h, imgs⟩ := b
    by_cases hlen : 1 < imgs.length
    · simp only [applyAssign, lastAssign, hlen, if_true]
      rw [ih, setGroup_path, setGroup_group_id]
    · simp only [applyAssign, lastAssign, hlen, if_false]
      exact ih _ _

theorem lastAssign_not_mem :
    ∀ (bs : List (String × List ImageData)) (base : Nat) (p : String) (cur : Option Nat),
      p ∉ bigPaths bs → lastAssign base bs p cur = cur := by
  intro bs
  induction bs with
  | nil => intro base p cur _; rfl
  | cons b rest ih =>
    obtain ⟨h, imgs⟩ := b
    intro base p cur hp
    by_cases hlen : 1 < imgs.length
    · have h1 : p ∉ memberPaths imgs := fun hc =>
        hp (by simp [bigPaths, hlen, hc])
      have h2 : p ∉ bigPaths rest := fun hc =>
        hp (by simp [bigPaths, hlen, hc])
      simp only [lastAssign, hlen, if_true, h1, if_false]
      exact ih _ _ _ h2
    · have h2 : p ∉ bigPaths rest := fun hc =>
        hp (by simp [bigPaths, hlen, hc])
      simp only [lastAssign, hlen, if_false]
      exact ih _ _ _ h2

theorem lastAssign_cases :
    ∀ (bs : List (String × List ImageData)) (base : Nat) (p : String) (cur : Option Nat),
      lastAssign base bs p cur = cur ∨
      ∃ g, lastAssign base bs p cur = some g ∧ base ≤ g := by
  intro bs
  induction bs with
  | nil => intro base p cur; exact Or.inl rfl
  | cons b rest ih =>
    obtain ⟨h, imgs⟩ := b
    intro base p cur
    by_cases hlen : 1 < imgs.length
    · simp only [lastAssign, hlen, if_true]
      rcases ih (base + 1) p (if p ∈ memberPaths imgs then some base else cur) with
        heq | ⟨g, hg, hge⟩
      · rw [heq]
        by_cases hmem : p ∈ memberPaths imgs
        · exact Or.inr ⟨base, by rw [if_pos hmem], Nat.le_refl base⟩
        · exact Or.inl (by rw [if_neg hmem])
      · exact Or.inr ⟨g, hg, Nat.le_of_succ_le hge⟩
    · simp only [lastAssign, hlen, if_false]
      exact ih base p cur

theorem groupsAdded_hash_mem :
    ∀ {bs : List (String × List ImageData)} {base : Nat} {g : GroupRow},
      g ∈ groupsAdded base bs → g.hash ∈ bs.map Prod.fst := by
  intro bs
  induction bs with
  | nil => intro base g hg; exact absurd hg (List.not_mem_nil _)
  | cons b rest ih =>
    obtain ⟨h, imgs⟩ := b
    intro base g hg
    by_cases hlen : 1 < imgs.length
    · simp only [groupsAdded, hlen, if_true] at hg
      rcases List.mem_cons.mp hg with heq | hmem
      · subst heq; exact List.mem_cons_self _ _
      · exact List.mem_cons_of_mem _ (ih hmem)
    · simp only [groupsAdded, hlen, if_false] at hg
      exact List.mem_cons_of_mem _ (ih hg)

/-- Per-bucket behaviour of the grouping loop on a bucket that forms a
group: exactly one inserted group row carries the bucket's hash, its
`image_count` is the bucket size, and `lastAssign` sends exactly the
bucket's member paths to the fresh id. -/
theorem bucket_spec_big :
    ∀ (bs : List (String × List ImageData)) (base : Nat) (h : String)
      (imgs : List ImageData),
      (h, imgs) ∈ bs → 1 < imgs.length →
      (bs.map Prod.fst).Nodup → (allPaths bs).Nodup →
      ∃ gid, base ≤ gid ∧
        (groupsAdded base bs).filter (fun g => g.hash == h)
          = [{ id := gid, hash := h, image_count := imgs.length }] ∧
        (∀ p, p ∈ memberPaths imgs → lastAssign base bs p none = some gid) ∧
        (∀ p, lastAssign base bs p none = some gid → p ∈ memberPaths imgs) := by
  intro bs
  induction bs with
  | nil => intro base h imgs hmem; exact absurd hmem (List.not_mem_nil _)
  | cons b rest ih =>
    intro base h imgs hmem hlen hkeys hpaths
    obtain ⟨h₀, imgs₀⟩ := b
    rw [List.map_cons, List.nodup_cons] at hkeys
    obtain ⟨hk0, hkrest⟩ := hkeys
    have hpaths' : (memberPaths imgs₀ ++ allPaths rest).Nodup := hpaths
    rw [List.nodup_append] at hpaths'
    obtain ⟨hnp0, hnprest, hdisj⟩ := hpaths'
    rcases List.mem_cons.mp hmem with heq | hmem'
    · -- the bucket is the head of the list
      injection heq with hh hi
      subst hh; subst hi
      refine ⟨base, Nat.le_refl base, ?_, ?_, ?_⟩
      · have htail : (groupsAdded (base + 1) rest).filter (fun g => g.hash == h) = [] := by
          rw [List.filter_eq_nil_iff]
          intro g hg
          have hmemk : g.hash ∈ rest.map Prod.fst := groupsAdded_hash_mem hg
          simp only [beq_iff_eq, Bool.not_eq_true, decide_eq_false_iff_not]
          intro hgh
          exact hk0 (hgh ▸ hmemk)
        simp only [groupsAdded, hlen, if_true]
        rw [List.filter_cons_of_pos (by simp), htail]
      · intro p hp
        have hp0 : p ∉ bigPaths rest := fun hc =>
          hdisj hp (bigPaths_subset_allPaths rest hc)
        have hstep : lastAssign base ((h, imgs) :: rest) p none
            = lastAssign (base + 1) rest p (some base) := by
          simp [lastAssign, hlen, hp]
        rw [hstep]
        exact lastAssign_not_mem rest _ _ _ hp0
      · intro p hlast
        by_contra hnp
        have hstep : lastAssign base ((h, imgs) :: rest) p none
            = lastAssign (base + 1) rest p none := by
          simp [lastAssign, hlen, hnp]
        rw [hstep] at hlast
        rcases lastAssign_cases rest (base + 1) p none with hc | ⟨g, hg, hge⟩
        · rw [hc] at hlast; exact Option.noConfusion hlast
        · rw [hg] at hlast
          injection hlast with hgb
          omega
    · -- the bucket is in the tail
      have hne : h₀ ≠ h := by
        intro he; subst he
        exact hk0 (List.mem_map.mpr ⟨(h₀, imgs), hmem', rfl⟩)
      by_cases hlen₀ : 1 < imgs₀.length
      · obtain ⟨gid, hge, hfilter, hfwd, hbwd⟩ :=
          ih (base + 1) h imgs hmem' hlen hkrest hnprest
        refine ⟨gid, by omega, ?_, ?_, ?_⟩
        · simp only [groupsAdded, hlen₀, if_true]
          rw [List.filter_cons_of_neg (by simp [hne]), hfilter]
        · intro p hp
          have hp0 : p ∉ memberPaths imgs₀ := fun hc =>
            hdisj hc (mem_allPaths hmem' p hp)
          have hstep : lastAssign base ((h₀, imgs₀) :: rest) p none
              = lastAssign (base + 1) rest p none := by
            simp [lastAssign, hlen₀, hp0]
          rw [hstep]
          exact hfwd p hp
        · intro p hlast
          by_cases hp0 : p ∈ memberPaths imgs₀
          · have hnb : p ∉ bigPaths rest := fun hc =>
              hdisj hp0 (bigPaths_subset_allPaths rest hc)
            have hstep : lastAssign base ((h₀, imgs₀) :: rest) p none
                = lastAssign (base + 1) rest p (some base) := by
              simp [lastAssign, hlen₀, hp0]
            rw [hstep, lastAssign_not_mem rest _ _ _ hnb] at hlast
            injection hlast with hbg
            omega
          · have hstep : lastAssign base ((h₀, imgs₀) :: rest) p none
                = lastAssign (base + 1) rest p none := by
              simp [lastAssign, hlen₀, hp0]
            rw [hstep] at hlast
            exact hbwd p hlast
      · obtain ⟨gid, hge, hfilter, hfwd, hbwd⟩ :=
          ih base h imgs hmem' hlen hkrest hnprest
        refine ⟨gid, hge, ?_, ?_, ?_⟩
        · simp only [groupsAdded, hlen₀, if_false]
          exact hfilter
        · intro p hp
          have hstep : lastAssign base ((h₀, imgs₀) :: rest) p none
              = lastAssign base rest p none := by
            simp [lastAssign, hlen₀]
          rw [hstep]
          exact hfwd p hp
        · intro p hlast
          have hstep : lastAssign base ((h₀, imgs₀) :: rest) p none
              = lastAssign base rest p none := by
            simp [lastAssign, hlen₀]
          rw [hstep] at hlast
          exact hbwd p hlast

/-- Per-bucket behaviour of the grouping loop on a singleton bucket: no
group row carries its hash, and its member path is left unassigned. -/
theorem bucket_spec_small :
    ∀ (bs : List (String × List ImageData)) (base : Nat) (h : String)
      (imgs : List ImageData),
      (h, imgs) ∈ bs → ¬ 1 < imgs.length →
      (bs.map Prod.fst).Nodup → (allPaths bs).Nodup →
      (groupsAdded base bs).filter (fun g => g.hash == h) = [] ∧
      (∀ p, p ∈ memberPaths imgs → lastAssign base bs p none = none) := by
  intro bs
  induction bs with
  | nil => intro base h imgs hmem; exact absurd hmem (List.not_mem_nil _)
  | cons b rest ih =>
    intro base h imgs hmem hlen hkeys hpaths
    obtain ⟨h₀, imgs₀⟩ := b
    rw [List.map_cons, List.nodup_cons] at hkeys
    obtain ⟨hk0, hkrest⟩ := hkeys
    have hpaths' : (memberPaths imgs₀ ++ allPaths rest).Nodup := hpaths
    rw [List.nodup_append] at hpaths'
    obtain ⟨hnp0, hnprest, hdisj⟩ := hpaths'
    rcases List.mem_cons.mp hmem with heq | hmem'
    · injection heq with hh hi
      subst hh; subst hi
      constructor
      · simp only [groupsAdded, hlen, if_false]
        rw [List.filter_eq_nil_iff]
        intro g hg
        have hmemk : g.hash ∈ rest.map Prod.fst := groupsAdded_hash_mem hg
        simp only [beq_iff_eq, Bool.not_eq_true, decide_eq_false_iff_not]
        intro hgh
        exact hk0 (hgh ▸ hmemk)
      · intro p hp
        have hp0 : p ∉ bigPaths rest := fun hc =>
          hdisj hp (bigPaths_subset_allPaths rest hc)
        have hstep : lastAssign base ((h, imgs) :: rest) p none
            = lastAssign base rest p none := by
          simp [lastAssign, hlen]
        rw [hstep]
        exact lastAssign_not_mem rest _ _ _ hp0
    · have hne : h₀ ≠ h := by
        intro he; subst he
        exact hk0 (List.mem_map.mpr ⟨(h₀, imgs), hmem', rfl⟩)
      by_cases hlen₀ : 1 < imgs₀.length
      · obtain ⟨hfilter, hnoassign⟩ := ih (base + 1) h imgs hmem' hlen hkrest hnprest
        constructor
        · simp only [groupsAdded, hlen₀, if_true]
          rw [List.filter_cons_of_neg (by simp [hne]), hfilter]
        · intro p hp
          have hp0 : p ∉ memberPaths imgs₀ := fun hc =>
            hdisj hc (mem_allPaths hmem' p hp)
          have hstep : lastAssign base ((h₀, imgs₀) :: rest) p none
              = lastAssign (base + 1) rest p none := by
            simp [lastAssign, hlen₀, hp0]
          rw [hstep]
          exact hnoassign p hp
      · obtain ⟨hfilter, hnoassign⟩ := ih base h imgs hmem' hlen hkrest hnprest
        constructor
        · simp only [groupsAdded, hlen₀, if_false]
          exact hfilter
        · intro p hp
          have hstep : lastAssign base ((h₀, imgs₀) :: rest) p none
              = lastAssign base rest p none := by
            simp [lastAssign, hlen₀]
          rw [hstep]
          exact hnoassign p hp

/-- **C1** (confirmed): for every scan — modelled as the grouping loop run
on a freshly reset catalog (`groups` empty, every row's `group_id` NULL, as
`setup_database` and `save_image_to_db` leave them) over the accumulated
`hash_to_images` buckets (distinct fingerprint keys; each file processed
once, so member paths are globally distinct; every bucket member was saved
as a row) — each bucket with at least 2 members produces exactly one
`DuplicateGroup` row carrying its fingerprint, with `image_count` equal to
the bucket size; a row gets that group's id iff its path is a member of the
bucket (so every member gets it and no outside file does); and a singleton
bucket yields no group row, its file's `group_id` remaining NULL. -/
theorem grouping_exact_and_singleton (db : DB) (bs : List (String × List ImageData))
    (hgroups : db.groups = [])
    (hnone : ∀ r ∈ db.images, r.group_id = none)
    (hkeys : (bs.map Prod.fst).Nodup)
    (hpaths : (allPaths bs).Nodup)
    (hrows : ∀ b ∈ bs, ∀ d ∈ b.2, ∃ r ∈ db.images, r.path = d.path) :
    ∀ b ∈ bs,
      (2 ≤ b.2.length →
        ∃ g, (runGrouping db bs).groups.filter (fun gr => gr.hash == b.1) = [g] ∧
          g.image_count = b.2.length ∧
          (∀ r ∈ (runGrouping db bs).images,
            (r.group_id = some g.id ↔ r.path ∈ memberPaths b.2)) ∧
          (∀ d ∈ b.2, ∃ r ∈ (runGrouping db bs).images,
            r.path = d.path ∧ r.group_id = some g.id)) ∧
      (b.2.length = 1 →
        (runGrouping db bs).groups.filter (fun gr => gr.hash == b.1) = [] ∧
        (∀ r ∈ (runGrouping db bs).images, r.path ∈ memberPaths b.2 → r.group_id = none)) := by
  intro b hb
  obtain ⟨h, imgs⟩ := b
  rw [runGrouping_eq]
  simp only
  constructor
  · intro hlen2
    have hlen : 1 < imgs.length := hlen2
    obtain ⟨gid, hge, hfilter, hfwd, hbwd⟩ :=
      bucket_spec_big bs db.nextGroupId h imgs hb hlen hkeys hpaths
    refine ⟨{ id := gid, hash := h, image_count := imgs.length }, ?_, rfl, ?_, ?_⟩
    · rw [hgroups, List.nil_append]
      exact hfilter
    · intro r hr
      rw [List.mem_map] at hr
      obtain ⟨r0, hr0, rfl⟩ := hr
      rw [applyAssign_group_id, applyAssign_path, hnone r0 hr0]
      exact ⟨fun hla => hbwd _ hla, fun hp => hfwd _ hp⟩
    · intro d hd
      obtain ⟨r0, hr0, hpath⟩ := hrows (h, imgs) hb d hd
      refine ⟨applyAssign db.nextGroupId bs r0, List.mem_map_of_mem _ hr0, ?_, ?_⟩
      · rw [applyAssign_path]; exact hpath
      · rw [applyAssign_group_id, hnone r0 hr0, hpath]
        exact hfwd d.path (List.mem_map_of_mem ImageData.path hd)
  · intro hlen1
    have hlen : ¬ 1 < imgs.length := by omega
    obtain ⟨hfilter, hnoassign⟩ :=
      bucket_spec_small bs db.nextGroupId h imgs hb hlen hkeys hpaths
    constructor
    · rw [hgroups, List.nil_append]
      exact hfilter
    · intro r hr hp
      rw [List.mem_map] at hr
      obtain ⟨r0, hr0, rfl⟩ := hr
      rw [applyAssign_path] at hp
      rw [applyAssign_group_id, hnone r0 hr0]
      exact hnoassign _ hp

/-- A two-member bucket, a singleton bucket, and the catalog state the
processing phase leaves for them — the concrete input of the C1 witness. -/
def c1ImgA : ImageData :=
  { path := "a.jpg", hash := "h1", filename := "a.jpg", resolution := "2x2",
    width := 2, height := 2, file_size := 10, date_taken := none, date_modified := none }

def c1ImgB : ImageData :=
  { path := "b.jpg", hash := "h1", filename := "b.jpg", resolution := "1x1",
    width := 1, height := 1, file_size := 5, date_taken := some "2020-01-01T00:00:00",
    date_modified := none }

def c1ImgC : ImageData :=
  { path := "c.jpg", hash := "h2", filename := "c.jpg", resolution := "3x3",
    width := 3, height := 3, file_size := 7, date_taken := none, date_modified := none }

def c1DB : DB :=
  { images := [rowOfData c1ImgA, rowOfData c1ImgB, rowOfData c1ImgC],
    groups := [], nextGroupId := 1 }

def c1Buckets : List (String × List ImageData) :=
  [("h1", [c1ImgA, c1ImgB]), ("h2", [c1ImgC])]

theorem grouping_exact_and_singleton_witness :
    (∃ g, (runGrouping c1DB c1Buckets).groups.filter (fun gr => gr.hash == "h1") = [g] ∧
      g.image_count = 2 ∧
      (∀ r ∈ (runGrouping c1DB c1Buckets).images,
        (r.group_id = some g.id ↔ r.path ∈ memberPaths [c1ImgA, c1ImgB])) ∧
      (∀ d ∈ [c1ImgA, c1ImgB], ∃ r ∈ (runGrouping c1DB c1Buckets).images,
        r.path = d.path ∧ r.group_id = some g.id)) ∧
    ((runGrouping c1DB c1Buckets).groups.filter (fun gr => gr.hash == "h2") = [] ∧
      (∀ r ∈ (runGrouping c1DB c1Buckets).images,
        r.path ∈ memberPaths [c1ImgC] → r.group_id = none)) :=
  ⟨(grouping_exact_and_singleton c1DB c1Buckets rfl (by decide) (by decide) (by decide)
      (by decide) ("h1", [c1ImgA, c1ImgB]) (by decide)).1 (by decide),
   (grouping_exact_and_singleton c1DB c1Buckets rfl (by decide) (by decide) (by decide)
      (by decide) ("h2", [c1ImgC]) (by decide)).2 rfl⟩

/-! ### The scan orchestrator (claims C3, C4, C8)

`ScanThread` emits three Qt signals; a scan is modelled as the trace of
emissions plus the final database.  Per-file external effects are
pre-recorded in a `FileInfo`: the fingerprint result (`None` on decode
failure — `get_image_hash` never raises), the metadata probe, and whether
the `save_image_to_db` INSERT raises (the only realistic exception source
inside the per-file `try:`; `get_image_hash` and `get_metadata` catch their
own exceptions).  The cooperative `should_stop` flag is modelled by the
iteration index from which the flag reads true. -/

inductive Event where
  | text (s : String)
  | value (n : Nat)
  | finished (success : Bool) (msg : String)
deriving DecidableEq, Repr

/-- One discovered file together with the outcomes of its external probes. -/
structure FileInfo where
  path : String
  hashResult : Option String
  probe : FileProbe
  saveFails : Bool
deriving DecidableEq, Repr

/-- `os.path.basename` for POSIX paths. -/
def basename (p : String) : String := (p.splitOn "/").getLastD p

/-- The `image_data` dict built for a file whose fingerprint was obtained. -/
def dataOfFile (f : FileInfo) (h : String) : ImageData :=
  let m := get_metadata f.probe
  { path := f.path, hash := h, filename := basename f.path,
    resolution := m.resolution, width := m.width, height := m.height,
    file_size := m.file_size, date_taken := m.date_taken,
    date_modified := m.date_modified }

/-- `hash_to_images[str(img_hash)].append(image_data)` on the insertion-
ordered association list modelling the `defaultdict(list)`. -/
def bucketAdd (bs : List (String × List ImageData)) (h : String) (d : ImageData) :
    List (String × List ImageData) :=
  match bs with
  | [] => [(h, [d])]
  | (k, v) :: rest => if k = h then (k, v ++ [d]) :: rest else (k, v) :: bucketAdd rest h d

/-- Mutable state of the processing loop; `events` carries only the
emissions made inside the loop. -/
structure LoopState where
  db : DB
  buckets : List (String × List ImageData)
  processed : Nat
  events : List Event
deriving Repr

def initialLoopState : LoopState :=
  { db := emptyDB, buckets := [], processed := 0, events := [] }

/-- The body of `for filepath in image_files` (after the `should_stop`
check): on a fingerprint, save the row and extend the bucket — unless the
save raises, in which case the whole body is absorbed by the per-file
`except` and nothing (not even the progress emission) happens; the progress
percentage `int((processed / len) * 80)` is emitted after each file that
did not raise. -/
def processFile (total : Nat) (st : LoopState) (f : FileInfo) : LoopState :=
  match f.hashResult with
  | some h =>
    if f.saveFails then st
    else
      let d := dataOfFile f h
      { st with
          db := save_image_to_db st.db d,
          buckets := bucketAdd st.buckets h d,
          processed := st.processed + 1,
          events := st.events ++ [Event.value ((st.processed + 1) * 80 / total)] }
  | none =>
      { st with
          processed := st.processed + 1,
          events := st.events ++ [Event.value ((st.processed + 1) * 80 / total)] }

/-- The `should_stop` flag as observed at the top of iteration `i`. -/
def shouldStop (stopAt : Option Nat) (i : Nat) : Bool :=
  match stopAt with
  | some n => decide (n ≤ i)
  | none => false

/-- The processing loop; the returned Bool records whether the loop exited
through the cancellation `return`. -/
def loopFiles (total : Nat) (stopAt : Option Nat) :
    Nat → LoopState → List FileInfo → LoopState × Bool
  | _, st, [] => (st, false)
  | i, st, f :: fs =>
    if shouldStop stopAt i then (st, true)
    else loopFiles total stopAt (i + 1) (processFile total st f) fs

/-- A scan's inputs: the discovered files (in discovery order) and the
point, if any, from which the cancellation flag reads true. -/
structure ScanInput where
  files : List FileInfo
  stopAt : Option Nat
deriving Repr

structure ScanResult where
  db : DB
  events : List Event
  cancelled : Bool
deriving Repr

/-- The status texts emitted before the processing loop. -/
def preEvents : List Event :=
  [Event.text "Database voorbereiden...", Event.text "Bestanden zoeken..."]

def procEvents (total : Nat) : List Event :=
  preEvents ++ [Event.text ("Verwerken van " ++ toString total ++ " afbeeldingen...")]

/-- The events emitted by the processing loop of a scan (between the
"Verwerken van ..." status text and the "Duplicaten zoeken..." one). -/
def processingEvents (inp : ScanInput) : List Event :=
  (loopFiles inp.files.length inp.stopAt 0 initialLoopState inp.files).1.events

/-- The tail of `scan_for_duplicates` reached when the loop was not
cancelled: the grouping loop, the final progress emission and the terminal
`finished_scan` signal. -/
def finishScan (total : Nat) (st : LoopState) : ScanResult :=
  let db1 := runGrouping st.db st.buckets
  let bigs := st.buckets.filter fun b => decide (1 < b.2.length)
  let evs := procEvents total ++ st.events
      ++ [Event.text "Duplicaten zoeken...", Event.value 100]
  if bigs.length = 0 then
    { db := db1,
      events := evs ++
        [Event.finished true "Geen duplicaten gevonden! Alle afbeeldingen zijn uniek."],
      cancelled := false }
  else
    { db := db1,
      events := evs ++
        [Event.finished true ("Scan voltooid!\n" ++ toString bigs.length
          ++ " groepen met " ++ toString ((bigs.map fun b => b.2.length - 1).sum)
          ++ " duplicaten gevonden.")],
      cancelled := false }

/-- `ScanThread.scan_for_duplicates`: schema reset, discovery (already
performed; an empty list yields the failure signal), the per-file loop with
its cancellation check, then grouping and the summary signal.  A cancelled
loop returns silently: no further event is emitted. -/
def scan_for_duplicates (inp : ScanInput) : ScanResult :=
  if inp.files.isEmpty then
    { db := emptyDB,
      events := preEvents ++ [Event.finished false "Geen afbeeldingen gevonden!"],
      cancelled := false }
  else
    let total := inp.files.length
    let res := loopFiles total inp.stopAt 0 initialLoopState inp.files
    if res.2 then
      { db := res.1.db, events := procEvents total ++ res.1.events, cancelled := true }
    else
      finishScan total res.1

theorem loopFiles_cons (total : Nat) (stopAt : Option Nat) (i : Nat) (st : LoopState)
    (f : FileInfo) (fs : List FileInfo) :
    loopFiles total stopAt i st (f :: fs)
      = if shouldStop stopAt i then (st, true)
        else loopFiles total stopAt (i + 1) (processFile total st f) fs := rfl

theorem processFile_groups (total : Nat) (st : LoopState) (f : FileInfo) :
    (processFile total st f).db.groups = st.db.groups := by
  unfold processFile save_image_to_db
  cases f.hashResult with
  | none => rfl
  | some h => by_cases hs : f.saveFails <;> simp [hs]

theorem processFile_images_len (total : Nat) (st : LoopState) (f : FileInfo) :
    (processFile total st f).db.images.length ≤ st.db.images.length + 1 := by
  unfold processFile save_image_to_db
  cases f.hashResult with
  | none => simp
  | some h =>
    by_cases hs : f.saveFails
    · simp [hs]
    · simp only [hs, Bool.false_eq_true, if_false, List.length_append, List.length_cons,
        List.length_nil]
      have := List.length_filter_le (fun r => r.path != (dataOfFile f h).path) st.db.images
      omega

theorem processFile_events (total : Nat) (st : LoopState) (f : FileInfo) :
    ∀ e ∈ (processFile total st f).events, e ∈ st.events ∨ ∃ v, e = Event.value v := by
  unfold processFile
  cases f.hashResult with
  | none =>
    intro e he
    simp only [List.mem_append, List.mem_singleton] at he
    rcases he with he | he
    · exact Or.inl he
    · exact Or.inr ⟨_, he⟩
  | some h =>
    by_cases hs : f.saveFails <;>
      simp only [hs, Bool.false_eq_true, if_true, if_false]
    · exact fun e he => Or.inl he
    · intro e he
      simp only [List.mem_append, List.mem_singleton] at he
      rcases he with he | he
      · exact Or.inl he
      · exact Or.inr ⟨_, he⟩

/-- If the cancellation flag reads true from iteration `n` on and there are
more than `n` files left, the loop exits through the cancellation `return`,
having added at most `n - i` image rows, no groups, and only progress-value
emissions. -/
theorem loop_cancel (total n : Nat) :
    ∀ (fs : List FileInfo) (i : Nat) (st : LoopState),
      i ≤ n → n < i + fs.length →
      (loopFiles total (some n) i st fs).2 = true ∧
      (loopFiles total (some n) i st fs).1.db.images.length
        ≤ st.db.images.length + (n - i) ∧
      (loopFiles total (some n) i st fs).1.db.groups = st.db.groups ∧
      (∀ e ∈ (loopFiles total (some n) i st fs).1.events,
        e ∈ st.events ∨ ∃ v, e = Event.value v) := by
  intro fs
  induction fs with
  | nil =>
    intro i st h1 h2
    exfalso
    simp only [List.length_nil] at h2
    omega
  | cons f fs ih =>
    intro i st h1 h2
    by_cases hstop : n ≤ i
    · have hs : shouldStop (some n) i = true := by simp [shouldStop, hstop]
      rw [loopFiles_cons, hs]
      exact ⟨rfl, Nat.le_add_right _ _, rfl, fun e he => Or.inl he⟩
    · have hs : shouldStop (some n) i = false := by
        simp only [shouldStop, decide_eq_false_iff_not]
        omega
      rw [loopFiles_cons, hs]
      simp only [Bool.false_eq_true, if_false]
      obtain ⟨hc, hlen, hgr, hev⟩ := ih (i + 1) (processFile total st f) (by omega)
        (by simp only [List.length_cons] at h2; omega)
      refine ⟨hc, ?_, ?_, ?_⟩
      · have := processFile_images_len total st f
        omega
      · rw [hgr, processFile_groups]
      · intro e he
        rcases hev e he with h | h
        · exact processFile_events total st f e h
        · exact Or.inr h

/-- With no cancellation request, the loop never exits early. -/
theorem loop_none_not_stopped (total : Nat) :
    ∀ (fs : List FileInfo) (i : Nat) (st : LoopState),
      (loopFiles total none i st fs).2 = false := by
  intro fs
  induction fs with
  | nil => intro i st; rfl
  | cons f fs ih =>
    intro i st
    rw [loopFiles_cons]
    exact ih _ _

/-! ### Claim C3 — cancellation -/

def c3Probe : FileProbe :=
  { statResult := some (10, "2020-01-01T00:00:00"), decodeResult := some (2, 2),
    exifDate := none }

def c3File1 : FileInfo :=
  { path := "a.jpg", hashResult := some "h1", probe := c3Probe, saveFails := false }

def c3File2 : FileInfo :=
  { path := "b.jpg", hashResult := some "h2", probe := c3Probe, saveFails := false }

def c3Input : ScanInput := { files := [c3File1, c3File2], stopAt := some 1 }

/-- **C3** counterexample: cancellation requested after 1 of 2 files — the
scan does terminate early with the one written row left in place and no
group created, but it emits nothing after the progress value: the full
trace has no `finished_scan` (`scanFinished`) emission at all, so the
claimed cancelled/`scanFinished(false, …)` signal is never sent (the
`return` at the top of the loop is silent). -/
theorem cancel_no_signal_cex :
    (scan_for_duplicates c3Input).cancelled = true ∧
    (scan_for_duplicates c3Input).events =
      [Event.text "Database voorbereiden...", Event.text "Bestanden zoeken...",
       Event.text "Verwerken van 2 afbeeldingen...", Event.value 40] := by
  constructor
  · rfl
  · rfl

/-- **C3** (amended): for every scan over M files in which the cancellation
flag reads true from iteration N on, with N < M, the scan terminates early
(`cancelled = true`) with at most N image rows written (left in place —
the result is exactly the loop state at the cancellation check), zero
duplicate groups created, and **no** terminal signal emitted: `finished_scan`
never fires on cancellation. -/
theorem cancellation_partial_state (inp : ScanInput) (n : Nat)
    (hstop : inp.stopAt = some n) (hn : n < inp.files.length) :
    (scan_for_duplicates inp).cancelled = true ∧
    (scan_for_duplicates inp).db.groups = [] ∧
    (scan_for_duplicates inp).db.images.length ≤ n ∧
    ∀ e ∈ (scan_for_duplicates inp).events, ∀ ok msg, e ≠ Event.finished ok msg := by
  have hne : inp.files.isEmpty = false := by
    cases hfs : inp.files with
    | nil => rw [hfs] at hn; simp at hn
    | cons a l => simp [hfs]
  obtain ⟨hc, hlen, hgr, hev⟩ :=
    loop_cancel inp.files.length n inp.files 0 initialLoopState (Nat.zero_le n)
      (by simpa using hn)
  rw [← hstop] at hc hlen hgr hev
  unfold scan_for_duplicates
  rw [hne]
  simp only [Bool.false_eq_true, if_false, hc, if_true]
  refine ⟨trivial, hgr, by simpa [initialLoopState, emptyDB] using hlen, ?_⟩
  intro e he ok msg
  simp only [procEvents, preEvents, List.mem_append, List.mem_cons,
    List.mem_singleton, List.not_mem_nil, or_false] at he
  rcases he with ((he | he) | he) | he
  · subst he; exact fun hcon => Event.noConfusion hcon
  · subst he; exact fun hcon => Event.noConfusion hcon
  · subst he; exact fun hcon => Event.noConfusion hcon
  · rcases hev e he with hinit | ⟨v, hv⟩
    · exact absurd hinit (List.not_mem_nil e)
    · subst hv; exact fun hcon => Event.noConfusion hcon

theorem cancellation_partial_state_witness :
    (scan_for_duplicates c3Input).cancelled = true ∧
    (scan_for_duplicates c3Input).db.groups = [] ∧
    (scan_for_duplicates c3Input).db.images.length ≤ 1 ∧
    ∀ e ∈ (scan_for_duplicates c3Input).events, ∀ ok msg, e ≠ Event.finished ok msg :=
  cancellation_partial_state c3Input 1 rfl (by decide)

/-! ### Claim C4 — store write failure during Processing -/

def c4Probe : FileProbe :=
  { statResult := some (10, "2020-01-01T00:00:00"), decodeResult := some (2, 2),
    exifDate := none }

def c4Good1 : FileInfo :=
  { path := "a.jpg", hashResult := some "h1", probe := c4Probe, saveFails := false }

def c4Bad : FileInfo :=
  { path := "x.jpg", hashResult := some "h1", probe := c4Probe, saveFails := true }

def c4Good2 : FileInfo :=
  { path := "c.jpg", hashResult := some "h1", probe := c4Probe, saveFails := false }

def c4Input : ScanInput := { files := [c4Good1, c4Bad, c4Good2], stopAt := none }

/-- **C4** counterexample: the second of three files fails its
`save_image_to_db` write — the scan does not stop and is not surfaced as
Failed: the remaining file is still processed (rows `a.jpg` and `c.jpg` are
present), and the terminal signal is a *success* (`finished_scan(True, …)`),
because the per-file `except` absorbs the store error. -/
theorem store_failure_absorbed_cex :
    (scan_for_duplicates c4Input).cancelled = false ∧
    (scan_for_duplicates c4Input).db.images.map ImageRow.path = ["a.jpg", "c.jpg"] ∧
    (scan_for_duplicates c4Input).events.getLast? =
      some (Event.finished true "Scan voltooid!\n1 groepen met 1 duplicaten gevonden.") := by
  refine ⟨rfl, by decide, by decide⟩

/-- **C4** (amended): a store write failure while persisting an ImageRecord
is absorbed as a per-file failure — the iteration leaves the scan state
completely unchanged (no row, no bucket entry, no progress emission) and
processing continues; with no cancellation request a scan over a non-empty
file list always runs to completion and emits a *success* terminal signal,
never a Failed one, whatever per-file save failures occurred.  (Only
schema-reset failures, outside the loop's `try`, abort the scan as Failed.) -/
theorem store_failure_absorbed (total : Nat) (st : LoopState) (f : FileInfo) (h : String)
    (hh : f.hashResult = some h) (hf : f.saveFails = true)
    (inp : ScanInput) (hs : inp.stopAt = none) (hne : inp.files ≠ []) :
    processFile total st f = st ∧
    (scan_for_duplicates inp).cancelled = false ∧
    ∃ msg, Event.finished true msg ∈ (scan_for_duplicates inp).events := by
  refine ⟨?_, ?_⟩
  · unfold processFile
    rw [hh, hf]
    rfl
  · have hemp : inp.files.isEmpty = false := by
      cases hfs : inp.files with
      | nil => exact absurd hfs hne
      | cons a l => simp [hfs]
    have hns := loop_none_not_stopped inp.files.length inp.files 0 initialLoopState
    rw [← hs] at hns
    unfold scan_for_duplicates
    rw [hemp]
    simp only [Bool.false_eq_true, if_false, hns]
    unfold finishScan
    by_cases hbig :
        ((loopFiles inp.files.length inp.stopAt 0 initialLoopState inp.files).1.buckets.filter
          fun b => decide (1 < b.2.length)).length = 0
    · simp only [hbig, if_true]
      exact ⟨trivial, _, List.mem_append.mpr (Or.inr (List.mem_singleton.mpr rfl))⟩
    · simp only [hbig, if_false]
      exact ⟨trivial, _, List.mem_append.mpr (Or.inr (List.mem_singleton.mpr rfl))⟩

theorem store_failure_absorbed_witness :
    processFile 3 initialLoopState c4Bad = initialLoopState ∧
    (scan_for_duplicates c4Input).cancelled = false ∧
    ∃ msg, Event.finished true msg ∈ (scan_for_duplicates c4Input).events :=
  store_failure_absorbed 3 initialLoopState c4Bad "h1" rfl rfl c4Input rfl (by decide)

/-! ### Claim C8 — per-file progress reporting -/

def c8File1 : FileInfo :=
  { path := "a.jpg", hashResult := some "h1", probe := c4Probe, saveFails := false }

def c8File2 : FileInfo :=
  { path := "b.jpg", hashResult := some "h2", probe := c4Probe, saveFails := false }

def c8Input : ScanInput := { files := [c8File1, c8File2], stopAt := none }

/-- **C8** counterexample: a two-file scan — the events emitted during the
Processing phase are exactly the two progress values, with not a single
status-text emission among them: the claimed per-file human-readable status
line is never emitted (status texts only appear at phase boundaries). -/
theorem per_file_status_line_cex :
    processingEvents c8Input = [Event.value 40, Event.value 80] ∧
    (processingEvents c8Input).countP
      (fun e => match e with | Event.text _ => true | _ => false) = 0 := by
  refine ⟨rfl, rfl⟩

/-- **C8** (amended): after each file whose processing did not raise, the
engine emits exactly one progress event with value
`int((processed / total) * 80)`, which lies in `[0, 80]` and is
proportional to the number of files processed so far; no status text is
emitted per file (status lines are per phase — see the counterexample). -/
theorem per_file_progress_value (total : Nat) (st : LoopState) (f : FileInfo)
    (htot : st.processed < total)
    (hok : f.hashResult = none ∨ f.saveFails = false) :
    ∃ v, (processFile total st f).events = st.events ++ [Event.value v] ∧
      v = (st.processed + 1) * 80 / total ∧ v ≤ 80 := by
  have hbound : (st.processed + 1) * 80 / total ≤ 80 := by
    have h1 : (st.processed + 1) * 80 ≤ total * 80 :=
      Nat.mul_le_mul_right 80 (by omega)
    have h2 : (st.processed + 1) * 80 / total ≤ total * 80 / total :=
      Nat.div_le_div_right h1
    rwa [Nat.mul_div_cancel_left 80 (by omega : 0 < total)] at h2
  refine ⟨(st.processed + 1) * 80 / total, ?_, rfl, hbound⟩
  unfold processFile
  cases hh : f.hashResult with
  | none => rfl
  | some h =>
    have hsf : f.saveFails = false := by
      rcases hok with h' | h'
      · rw [hh] at h'; exact Option.noConfusion h'
      · exact h'
    simp [hsf]

theorem per_file_progress_value_witness :
    ∃ v, (processFile 2 initialLoopState c8File1).events
        = initialLoopState.events ++ [Event.value v] ∧
      v = (initialLoopState.processed + 1) * 80 / 2 ∧ v ≤ 80 :=
  per_file_progress_value 2 initialLoopState c8File1 (by decide) (Or.inr rfl)

/-! ### Claim C6 — the duplicate-groups query and soft deletion

`DuplicatePhotoManager.load_existing_results`: the groups query joins
`duplicate_groups` with non-deleted member rows, keeps groups with more
than one such member, and orders by member count descending; the per-group
query selects the non-deleted members ordered by
`is_original DESC, width * height DESC`; lists of fewer than 2 members are
dropped.  SQL leaves the relative order of ties unspecified; the embedding
realizes it with a stable sort, and the theorems below state only
tie-insensitive facts (membership, sortedness). -/

/-- The non-deleted members of a group:
`WHERE group_id = ? AND is_deleted = FALSE`. -/
def groupMembers (db : DB) (gid : Nat) : List ImageRow :=
  db.images.filter fun r => decide (r.group_id = some gid) && !r.is_deleted

/-- `ORDER BY COUNT(i.id) DESC` on `(group, count)` pairs. -/
def cntGe (a b : GroupRow × Nat) : Prop := b.2 ≤ a.2

instance : DecidableRel cntGe := fun _ _ => by unfold cntGe; exact inferInstance

instance : IsTotal (GroupRow × Nat) cntGe := ⟨fun a b => Nat.le_total b.2 a.2⟩

instance : IsTrans (GroupRow × Nat) cntGe :=
  ⟨fun _ _ _ h1 h2 => Nat.le_trans h2 h1⟩

/-- The `ORDER BY is_original DESC, width * height DESC` key. -/
def rowKey (r : ImageRow) : Nat × Nat :=
  ((if r.is_original then 1 else 0), r.width * r.height)

/-- Lexicographic `≤` on `(Nat, Nat)`. -/
def natPairLe (k1 k2 : Nat × Nat) : Prop :=
  k1.1 < k2.1 ∨ (k1.1 = k2.1 ∧ k1.2 ≤ k2.2)

instance : ∀ k1 k2, Decidable (natPairLe k1 k2) := fun _ _ => by
  unfold natPairLe; exact inferInstance

/-- "`a` sorts no later than `b`" for the members query. -/
def memGe (a b : ImageRow) : Prop := natPairLe (rowKey b) (rowKey a)

instance : DecidableRel memGe := fun _ _ => by unfold memGe; exact inferInstance

instance : IsTotal ImageRow memGe :=
  ⟨fun a b => by
    unfold memGe natPairLe
    rcases Nat.lt_trichotomy (rowKey b).1 (rowKey a).1 with h | h | h
    · exact Or.inl (Or.inl h)
    · rcases Nat.le_total (rowKey b).2 (rowKey a).2 with hs | hs
      · exact Or.inl (Or.inr ⟨h, hs⟩)
      · exact Or.inr (Or.inr ⟨h.symm, hs⟩)
    · exact Or.inr (Or.inl h)⟩

instance : IsTrans ImageRow memGe :=
  ⟨fun a b c h1 h2 => by
    unfold memGe natPairLe at *
    rcases h2 with h | ⟨he, hs⟩ <;> rcases h1 with h' | ⟨he', hs'⟩
    · exact Or.inl (h.trans h')
    · exact Or.inl (he' ▸ h)
    · exact Or.inl (he ▸ h')
    · exact Or.inr ⟨he.trans he', hs.trans hs'⟩⟩

/-- `DuplicatePhotoManager.load_existing_results`: the list of duplicate
groups (as member-row lists) shown to the user. -/
def load_existing_results (db : DB) : List (List ImageRow) :=
  let counted := db.groups.filterMap fun g =>
    if 1 < (groupMembers db g.id).length then some (g, (groupMembers db g.id).length)
    else none
  let ordered := counted.insertionSort cntGe
  ordered.filterMap fun gc =>
    let imgs := (groupMembers db gc.1.id).insertionSort memGe
    if 1 < imgs.length then some imgs else none

theorem groupMembers_mem {db : DB} {gid : Nat} {r : ImageRow}
    (h : r ∈ groupMembers db gid) :
    r ∈ db.images ∧ r.group_id = some gid ∧ r.is_deleted = false := by
  unfold groupMembers at h
  rw [List.mem_filter] at h
  obtain ⟨h1, h2⟩ := h
  rw [Bool.and_eq_true, decide_eq_true_eq, Bool.not_eq_true'] at h2
  exact ⟨h1, h2.1, h2.2⟩

theorem mem_load_existing_results {db : DB} {grp : List ImageRow}
    (h : grp ∈ load_existing_results db) :
    ∃ gid, grp = (groupMembers db gid).insertionSort memGe ∧ 1 < grp.length := by
  unfold load_existing_results at h
  simp only [List.mem_filterMap] at h
  obtain ⟨gc, _, hf⟩ := h
  by_cases hlen : 1 < ((groupMembers db gc.1.id).insertionSort memGe).length
  · rw [if_pos hlen] at hf
    injection hf with hf
    exact ⟨gc.1.id, hf.symm, hf ▸ hlen⟩
  · rw [if_neg hlen] at hf
    exact Option.noConfusion hf

theorem markDeleted_path_deleted {db : DB} {p : String} :
    ∀ r ∈ (markDeleted db p).images, r.path = p → r.is_deleted = true := by
  intro r hr hp
  unfold markDeleted at hr
  rw [List.mem_map] at hr
  obtain ⟨r0, _, rfl⟩ := hr
  by_cases h0 : r0.path = p
  · simp [h0]
  · rw [if_neg h0] at hp ⊢
    exact absurd hp h0

theorem markDeleted_is_original {db : DB} {p : String}
    (h : ∀ r ∈ db.images, r.is_original = false) :
    ∀ r ∈ (markDeleted db p).images, r.is_original = false := by
  intro r hr
  unfold markDeleted at hr
  rw [List.mem_map] at hr
  obtain ⟨r0, hr0, rfl⟩ := hr
  by_cases h0 : r0.path = p <;> simp [h0, h r0 hr0]

/-- On a catalog in which `is_original` is uniformly false (as every scan
leaves it), the members-query order collapses to pixel area descending. -/
theorem memGe_area {a b : ImageRow} (ha : a.is_original = false)
    (hb : b.is_original = false) (h : memGe a b) :
    b.width * b.height ≤ a.width * a.height := by
  unfold memGe natPairLe rowKey at h
  rw [ha, hb] at h
  simp only [if_false] at h
  rcases h with h | ⟨_, h⟩
  · exact absurd h (lt_irrefl 0)
  · exact h

theorem delete_image_ok_db (w : DeleteWorld) (p : String)
    (hrm : w.removeFails = false) (hdb : w.dbUpdateFails = false) :
    (delete_image w p).ok = true ∧ (delete_image w p).db = markDeleted w.db p := by
  unfold delete_image
  cases hf : w.fsExists <;> simp [hrm, hdb, hf]

theorem markDeleted_mem_deleted {db : DB} {p : String}
    (hex : ∃ r ∈ db.images, r.path = p) :
    ∃ r ∈ (markDeleted db p).images, r.path = p ∧ r.is_deleted = true := by
  obtain ⟨r0, hr0, hp⟩ := hex
  refine ⟨_, List.mem_map_of_mem
    (fun r => if r.path = p then { r with is_deleted := true } else r) hr0, ?_⟩
  rw [if_pos hp]
  exact ⟨hp, rfl⟩

/-- **C6** (confirmed, under the invariant every scan maintains: `is_original`
is uniformly false): after `deleteImage(p)` succeeds, `p` never appears in
`listDuplicateGroups()` results even though its row still exists with
`is_deleted = true`; only groups with at least 2 non-deleted members are
returned, ordered by member count descending, with members ordered by pixel
area descending. -/
theorem soft_delete_visibility (w : DeleteWorld) (p : String)
    (hrm : w.removeFails = false) (hdb : w.dbUpdateFails = false)
    (horig : ∀ r ∈ w.db.images, r.is_original = false)
    (hex : ∃ r ∈ w.db.images, r.path = p) :
    (delete_image w p).ok = true ∧
    (∀ grp ∈ load_existing_results (delete_image w p).db, ∀ r ∈ grp, r.path ≠ p) ∧
    (∃ r ∈ (delete_image w p).db.images, r.path = p ∧ r.is_deleted = true) ∧
    (∀ grp ∈ load_existing_results (delete_image w p).db,
      2 ≤ grp.length ∧ ∀ r ∈ grp, r.is_deleted = false) ∧
    (load_existing_results (delete_image w p).db).Sorted
      (fun g1 g2 => g2.length ≤ g1.length) ∧
    (∀ grp ∈ load_existing_results (delete_image w p).db,
      grp.Sorted fun r1 r2 => r2.width * r2.height ≤ r1.width * r1.height) := by
  obtain ⟨hok, hdbeq⟩ := delete_image_ok_db w p hrm hdb
  rw [hdbeq]
  have horig2 : ∀ r ∈ (markDeleted w.db p).images, r.is_original = false :=
    markDeleted_is_original horig
  have hmemgrp : ∀ grp ∈ load_existing_results (markDeleted w.db p),
      ∀ r ∈ grp, r ∈ (markDeleted w.db p).images ∧ r.is_deleted = false := by
    intro grp hgrp r hr
    obtain ⟨gid, hgeq, _⟩ := mem_load_existing_results hgrp
    rw [hgeq, List.mem_insertionSort] at hr
    obtain ⟨h1, _, h3⟩ := groupMembers_mem hr
    exact ⟨h1, h3⟩
  refine ⟨hok, ?_, markDeleted_mem_deleted hex, ?_, ?_, ?_⟩
  · intro grp hgrp r hr hp
    obtain ⟨hin, hdel⟩ := hmemgrp grp hgrp r hr
    rw [markDeleted_path_deleted r hin hp] at hdel
    exact Bool.noConfusion hdel
  · intro grp hgrp
    obtain ⟨gid, _, hlen⟩ := mem_load_existing_results hgrp
    exact ⟨hlen, fun r hr => (hmemgrp grp hgrp r hr).2⟩
  · -- groups ordered by member count descending
    unfold load_existing_results
    simp only
    set db2 := markDeleted w.db p with hdb2
    set counted := db2.groups.filterMap fun g =>
      if 1 < (groupMembers db2 g.id).length then some (g, (groupMembers db2 g.id).length)
      else none with hcounted
    have hcnt : ∀ gc ∈ counted.insertionSort cntGe,
        gc.2 = (groupMembers db2 gc.1.id).length := by
      intro gc hgc
      rw [List.mem_insertionSort, hcounted, List.mem_filterMap] at hgc
      obtain ⟨g, _, hf⟩ := hgc
      by_cases hl : 1 < (groupMembers db2 g.id).length
      · rw [if_pos hl] at hf
        injection hf with hf
        rw [← hf]
      · rw [if_neg hl] at hf
        exact Option.noConfusion hf
    have hpair : (counted.insertionSort cntGe).Pairwise
        (fun a b => (groupMembers db2 b.1.id).length ≤ (groupMembers db2 a.1.id).length) := by
      refine List.Pairwise.imp_of_mem ?_ (List.sorted_insertionSort cntGe counted)
      intro a b ha hb hab
      rw [← hcnt a ha, ← hcnt b hb]
      exact hab
    refine List.Pairwise.filterMap _ ?_ hpair
    intro a a' hr b hb b' hb'
    by_cases hla : 1 < ((groupMembers db2 a.1.id).insertionSort memGe).length
    · rw [if_pos hla, Option.mem_def] at hb
      by_cases hla' : 1 < ((groupMembers db2 a'.1.id).insertionSort memGe).length
      · rw [if_pos hla', Option.mem_def] at hb'
        injection hb with hb
        injection hb' with hb'
        subst hb; subst hb'
        calc ((groupMembers db2 a'.1.id).insertionSort memGe).length
            = (groupMembers db2 a'.1.id).length :=
              (List.perm_insertionSort memGe _).length_eq
          _ ≤ (groupMembers db2 a.1.id).length := hr
          _ = ((groupMembers db2 a.1.id).insertionSort memGe).length :=
              ((List.perm_insertionSort memGe _).length_eq).symm
      · rw [if_neg hla', Option.mem_def] at hb'
        exact Option.noConfusion hb'
    · rw [if_neg hla, Option.mem_def] at hb
      exact Option.noConfusion hb
  · -- members ordered by pixel area descending
    intro grp hgrp
    obtain ⟨gid, hgeq, _⟩ := mem_load_existing_results hgrp
    have hsorted : grp.Sorted memGe := by
      rw [hgeq]; exact List.sorted_insertionSort memGe _
    refine List.Pairwise.imp_of_mem ?_ hsorted
    intro r1 r2 h1 h2 h12
    exact memGe_area (horig2 r1 (hmemgrp grp hgrp r1 h1).1)
      (horig2 r2 (hmemgrp grp hgrp r2 h2).1) h12

def c6RowA : ImageRow :=
  { path := "a.jpg", filename := "a.jpg", hash := "h1", resolution := "2x2",
    width := 2, height := 2, file_size := 10, date_taken := none,
    date_modified := none, is_original := false, group_id := some 1,
    is_deleted := false }

def c6RowB : ImageRow :=
  { path := "b.jpg", filename := "b.jpg", hash := "h1", resolution := "1x1",
    width := 1, height := 1, file_size := 5, date_taken := none,
    date_modified := none, is_original := false, group_id := some 1,
    is_deleted := false }

def c6World : DeleteWorld :=
  { db := { images := [c6RowA, c6RowB],
            groups := [{ id := 1, hash := "h1", image_count := 2 }],
            nextGroupId := 2 },
    fsExists := true, removeFails := false, dbUpdateFails := false }

theorem soft_delete_visibility_witness :
    (delete_image c6World "b.jpg").ok = true ∧
    (∀ grp ∈ load_existing_results (delete_image c6World "b.jpg").db,
      ∀ r ∈ grp, r.path ≠ "b.jpg") ∧
    (∃ r ∈ (delete_image c6World "b.jpg").db.images,
      r.path = "b.jpg" ∧ r.is_deleted = true) ∧
    (∀ grp ∈ load_existing_results (delete_image c6World "b.jpg").db,
      2 ≤ grp.length ∧ ∀ r ∈ grp, r.is_deleted = false) ∧
    (load_existing_results (delete_image c6World "b.jpg").db).Sorted
      (fun g1 g2 => g2.length ≤ g1.length) ∧
    (∀ grp ∈ load_existing_results (delete_image c6World "b.jpg").db,
      grp.Sorted fun r1 r2 => r2.width * r2.height ≤ r1.width * r1.height) :=
  soft_delete_visibility c6World "b.jpg" rfl rfl (by decide) (by decide)

end DupFinder
